import Mathlib

/-!
Verification of the brute-force TSP solver in `python_tsp/brute_force.py`.

The module is a single function `solve_tsp_brute_force` plus the helper
`_permutation_distance`.  We embed it shallowly:

* matrix entries are modelled by `PyF`, a value that is either a finite
  rational, positive infinity (the initial best distance is `np.inf`, and
  entries may be infinite), or NaN; addition and the `<` comparison follow
  IEEE semantics on these values (any comparison involving NaN is false,
  `inf < inf` is false);
* the distance matrix is a list of rows; `numpy` fancy indexing
  `distance_matrix[ind1, ind2]` looks up each index pair, an out-of-range
  pair raising `Err.indexError` tagged with the offending axis; the column
  write `distance_matrix[:, 0] = 0` is `setColumn0`, which raises the
  axis-1 `IndexError` on a 0-column matrix before any permutation is
  evaluated, as numpy bounds-checks the integer column index even when the
  row slice is empty;
* `itertools.permutations(points)` for `points = range(1, n)` is `perms`,
  which emits, for each position in order, the chosen head followed by the
  permutations of the remaining elements (the itertools order);
* the search loop with its `distance < best_distance` update is `loop`;
  when no candidate ever compares below the running best, `best_solution`
  stays `None` and `[0] + list(None)` raises a `TypeError`, modelled by
  `Err.typeError`;
* fallible evaluation is `Except Err`.
-/

/-- IEEE-style value: a finite rational, plus infinity, or NaN. -/
inductive PyF where
  | fin (q : ℚ)
  | inf
  | nan
deriving DecidableEq, Repr

/-- IEEE addition on `PyF` (no negative infinity arises here). -/
def PyF.add : PyF → PyF → PyF
  | .fin a, .fin b => .fin (a + b)
  | .nan, _ => .nan
  | _, .nan => .nan
  | .inf, _ => .inf
  | _, .inf => .inf

/-- IEEE `<`: comparisons with NaN are false, `inf < inf` is false. -/
def PyF.lt : PyF → PyF → Bool
  | .fin a, .fin b => decide (a < b)
  | .fin _, .inf => true
  | .fin _, .nan => false
  | .inf, _ => false
  | .nan, _ => false

/-- IEEE `<=` on the modelled values. -/
def PyF.le (a b : PyF) : Bool := PyF.lt a b || decide (a = b)

/-- Whether a value is finite. -/
def PyF.isFin : PyF → Bool
  | .fin _ => true
  | _ => false

/-- Runtime errors the solver can raise. -/
inductive Err where
  /-- numpy `IndexError`, tagged with the axis whose bound was violated
  (axis 0 for a row index, axis 1 for a column index). -/
  | indexError (axis : Nat)
  /-- Python `TypeError`: `[0] + list(None)` when `best_solution` is `None`. -/
  | typeError
deriving DecidableEq, Repr

/-- A distance matrix: a list of rows of `PyF` entries. -/
abbrev Mat := List (List PyF)

/-- Read entry `(i, j)`; `none` when out of bounds. -/
def mget (M : Mat) (i j : Nat) : Option PyF :=
  (M.get? i).bind fun row => row.get? j

/-- Sum of the matrix entries at a list of index pairs, as in
`distance_matrix[ind1, ind2].sum()`; an out-of-bounds pair raises
`IndexError`. -/
def pairSum (M : Mat) : List (Nat × Nat) → Except Err PyF
  | [] => .ok (.fin 0)
  | (i, j) :: rest =>
    match M.get? i with
    | none => .error (.indexError 0)
    | some row =>
      match row.get? j with
      | none => .error (.indexError 1)
      | some d =>
        match pairSum M rest with
        | .error e => .error e
        | .ok s => .ok (PyF.add d s)

/-- `_permutation_distance(permutation, distance_matrix)`:
`ind1 = [0] + permutation`, `ind2 = permutation + [0]`, and the distance is
`distance_matrix[ind1, ind2].sum()`. -/
def permutation_distance (perm : List Nat) (M : Mat) : Except Err PyF :=
  pairSum M (List.zip (0 :: perm) (perm ++ [0]))

/-- Total version of `permutation_distance` (NaN on an indexing error);
used to state properties of the search loop. -/
def tourDist (M : Mat) (perm : List Nat) : PyF :=
  match permutation_distance perm M with
  | .ok d => d
  | .error _ => .nan

/-- All ways to pick one element of a list: the element together with the
remaining elements in their original order. -/
def selections : List Nat → List (Nat × List Nat)
  | [] => []
  | a :: rest => (a, rest) :: (selections rest).map fun q => (q.1, a :: q.2)

/-- Fuelled permutation enumeration (fuel = list length). -/
def permsAux : Nat → List Nat → List (List Nat)
  | 0, _ => [[]]
  | fuel + 1, l => (selections l).flatMap fun q => (permsAux fuel q.2).map (q.1 :: ·)

/-- `itertools.permutations(l)`: for each position in order, the element at
that position followed by every permutation of the remaining elements. -/
def perms (l : List Nat) : List (List Nat) := permsAux l.length l

/-- One iteration of the search loop on a candidate distance: replace the
best pair exactly when `distance < best_distance`. -/
def updateBest (d : PyF) (p : List Nat) (acc : PyF × Option (List Nat)) :
    PyF × Option (List Nat) :=
  if PyF.lt d acc.1 then (d, some p) else acc

/-- The search loop over candidate permutations, propagating errors raised
by `_permutation_distance`. -/
def loop (M : Mat) : List (List Nat) → PyF × Option (List Nat) →
    Except Err (PyF × Option (List Nat))
  | [], acc => .ok acc
  | p :: rest, acc =>
    match permutation_distance p M with
    | .error e => .error e
    | .ok d => loop M rest (updateBest d p acc)

/-- The pure search loop, used once error-freedom is established. -/
def pfold (g : List Nat → PyF) : List (List Nat) → PyF × Option (List Nat) →
    PyF × Option (List Nat)
  | [], acc => acc
  | p :: rest, acc => pfold g rest (updateBest (g p) p acc)

/-- The value of the matrix after a successful `distance_matrix[:, 0] = 0`:
every row's first entry zeroed. -/
def zeroColumn0 (M : Mat) : Mat := M.map fun row => row.set 0 (.fin 0)

/-- The write `distance_matrix[:, 0] = 0` on an r × c array: numpy
bounds-checks the integer column index against axis 1 even when the row
slice selects no rows, so the write raises the axis-1 `IndexError` when
c = 0 (in particular on the 0 × 0 matrix); otherwise it zeroes the first
entry of every row. -/
def setColumn0 (M : Mat) : Except Err Mat :=
  if 0 < (M.headD []).length then .ok (zeroColumn0 M) else .error (.indexError 1)

/-- The working matrix the loop reads when the working-matrix construction
succeeds: the column-0-zeroed copy for an open problem, the input itself
otherwise. -/
def workMat (M : Mat) (open_tsp : Bool) : Mat :=
  if open_tsp then zeroColumn0 M else M

/-- The permutation search and result assembly shared by both flags: run
the loop from an infinite best distance over every candidate permutation,
then build the final tour (`TypeError` when no candidate ever replaced the
initial `None`). -/
def searchBody (Mw : Mat) (points : List Nat) (open_tsp : Bool) :
    Except Err (List Nat × PyF) :=
  match loop Mw (perms points) (.inf, none) with
  | .error e => .error e
  | .ok (bd, bs) =>
    match bs with
    | none => .error .typeError
    | some sol => .ok ((0 :: sol) ++ (if open_tsp then [] else [0]), bd)

/-- `solve_tsp_brute_force(distance_matrix, open_tsp)`: for an open problem
the working matrix is a copy of the input whose column 0 is then zeroed in
place — a write that itself raises `IndexError` on a 0-column matrix,
before any permutation is evaluated. -/
def solve_tsp_brute_force (M : Mat) (open_tsp : Bool) :
    Except Err (List Nat × PyF) :=
  let points := List.range' 1 (M.length - 1)
  match (if open_tsp then setColumn0 M else .ok M) with
  | .error e => .error e
  | .ok Mw => searchBody Mw points open_tsp

/-!
Reference-level model for the mutation claim: numpy arrays live in a heap of
array objects and are passed by reference; `distance_matrix.copy()` allocates
a fresh object and `distance_matrix[:, 0] = 0` writes in place to the object
the local name is currently bound to.
-/

/-- A heap of array objects, addressed by position. -/
abbrev Heap := List Mat

/-- Read the array object at address `a`. -/
def readArr (h : Heap) (a : Nat) : Mat := h.getD a []

/-- `distance_matrix.copy()`: allocate a fresh array holding the same value;
returns the new heap and the new object's address. -/
def allocCopy (h : Heap) (a : Nat) : Heap × Nat := (h ++ [readArr h a], h.length)

/-- `solve_tsp_brute_force` with the distance matrix passed by reference:
the input is an address into the heap, and the final heap is returned next
to the result.  The open case rebinds the local name to a fresh copy and
then performs the in-place column write on that copy (a write that can
itself raise, leaving the copy allocated but unmodified); the closed case
never writes. -/
def solve_tsp_brute_force_heap (h : Heap) (a : Nat) (open_tsp : Bool) :
    Except Err (List Nat × PyF) × Heap :=
  let points := List.range' 1 ((readArr h a).length - 1)
  if open_tsp then
    let alloc := allocCopy h a
    match setColumn0 (readArr alloc.1 alloc.2) with
    | .error e => (.error e, alloc.1)
    | .ok arr =>
      let h2 := alloc.1.set alloc.2 arr
      (searchBody (readArr h2 alloc.2) points open_tsp, h2)
  else (searchBody (readArr h a) points open_tsp, h)

instance {ε α : Type} [DecidableEq ε] [DecidableEq α] : DecidableEq (Except ε α) := fun a b =>
  match a, b with
  | .error x, .error y => decidable_of_iff (x = y) (by simp)
  | .error _, .ok _ => isFalse (by simp)
  | .ok _, .error _ => isFalse (by simp)
  | .ok x, .ok y => decidable_of_iff (x = y) (by simp)

/-- Square shape check: `n` rows, each of length `n`. -/
def matSquare (M : Mat) (n : Nat) : Bool :=
  M.length == n && M.all fun row => row.length == n

/-- All entries finite. -/
def matFinite (M : Mat) : Bool :=
  M.all fun row => row.all PyF.isFin

/-- Every entry of column 0 is a nonnegative finite value. -/
def col0Nonneg (M : Mat) : Bool :=
  M.all fun row =>
    match row.get? 0 with
    | some (.fin q) => decide (0 ≤ q)
    | some _ => false
    | none => true

/-! ### Basic facts about the modelled IEEE order -/

theorem PyF.lt_irrefl (a : PyF) : PyF.lt a a = false := by
  cases a <;> simp [PyF.lt]

theorem PyF.lt_trans {a b c : PyF} (h₁ : PyF.lt a b = true) (h₂ : PyF.lt b c = true) :
    PyF.lt a c = true := by
  cases a <;> cases b <;> cases c <;> simp_all [PyF.lt] <;> linarith

theorem PyF.lt_asymm {a b : PyF} (h : PyF.lt a b = true) : PyF.lt b a = false := by
  cases a <;> cases b <;> simp_all [PyF.lt] <;> linarith

theorem PyF.lt_fin_left {a b : PyF} (h : PyF.lt a b = true) : PyF.isFin a = true := by
  cases a <;> simp_all [PyF.lt, PyF.isFin]

theorem PyF.isFin_lt_inf {a : PyF} (h : PyF.isFin a = true) : PyF.lt a .inf = true := by
  cases a <;> simp_all [PyF.lt, PyF.isFin]

theorem PyF.le_fin_iff {a b : ℚ} : PyF.le (.fin a) (.fin b) = true ↔ a ≤ b := by
  simp [PyF.le, PyF.lt, le_iff_lt_or_eq]

theorem PyF.fin_lt_iff {a b : ℚ} : PyF.lt (.fin a) (.fin b) = true ↔ a < b := by
  simp [PyF.lt]

/-! ### The permutation enumeration -/

theorem selections_mem {l : List Nat} {q : Nat × List Nat} (h : q ∈ selections l) :
    (q.1 :: q.2).Perm l := by
  induction l generalizing q with
  | nil => simp [selections] at h
  | cons a rest ih =>
    simp only [selections, List.mem_cons, List.mem_map] at h
    rcases h with h | ⟨r, hr, rfl⟩
    · subst h; exact List.Perm.refl _
    · exact (List.Perm.swap a r.1 r.2).trans ((ih hr).cons a)

theorem selections_length {l : List Nat} {q : Nat × List Nat} (h : q ∈ selections l) :
    q.2.length + 1 = l.length := by
  have := (selections_mem h).length_eq
  simpa using this

theorem selections_of_mem {l : List Nat} {x : Nat} (h : x ∈ l) :
    (x, l.erase x) ∈ selections l := by
  induction l with
  | nil => simp at h
  | cons a rest ih =>
    by_cases hax : a = x
    · subst hax
      simp [selections, List.erase_cons_head]
    · have hx : x ∈ rest := by
        rcases List.mem_cons.mp h with h | h
        · exact absurd h.symm hax
        · exact h
      have : (x, rest.erase x) ∈ selections rest := ih hx
      have hmem : (x, a :: rest.erase x) ∈ selections (a :: rest) := by
        simp only [selections, List.mem_cons, List.mem_map]
        exact Or.inr ⟨(x, rest.erase x), this, rfl⟩
      have herase : (a :: rest).erase x = a :: rest.erase x := by
        rw [List.erase_cons]
        simp [hax]
      rw [herase]
      exact hmem

theorem permsAux_mem : ∀ (fuel : Nat) (l : List Nat), l.length = fuel →
    ∀ (p : List Nat), (p ∈ permsAux fuel l ↔ p.Perm l) := by
  intro fuel
  induction fuel with
  | zero =>
    intro l hl p
    have : l = [] := List.length_eq_zero.mp hl
    subst this
    simp [permsAux, List.perm_nil]
  | succ n ih =>
    intro l hl p
    simp only [permsAux, List.mem_flatMap, List.mem_map]
    constructor
    · rintro ⟨q, hq, p', hp', rfl⟩
      have hlen : q.2.length = n := by have := selections_length hq; omega
      have hperm : p'.Perm q.2 := (ih q.2 hlen p').mp hp'
      exact (hperm.cons q.1).trans (selections_mem hq)
    · intro hp
      have hne : p ≠ [] := by
        intro hnil
        subst hnil
        have : l = [] := (List.perm_nil.mp hp.symm)
        subst this
        simp at hl
      obtain ⟨x, p', rfl⟩ := List.exists_cons_of_ne_nil hne
      have hx : x ∈ l := hp.subset (List.mem_cons_self x p')
      refine ⟨(x, l.erase x), selections_of_mem hx, p', ?_, rfl⟩
      have hperm : p'.Perm (l.erase x) := by
        have h1 : l.Perm (x :: l.erase x) := List.perm_cons_erase hx
        exact (List.perm_cons x).mp (hp.trans h1)
      have hlen : (l.erase x).length = n := by
        have := List.length_erase_of_mem hx
        omega
      exact (ih (l.erase x) hlen p').mpr hperm

theorem perms_mem {l p : List Nat} : p ∈ perms l ↔ p.Perm l :=
  permsAux_mem l.length l rfl p

/-! ### The search loop -/

theorem tourDist_eq {M : Mat} {p : List Nat} {d : PyF}
    (h : permutation_distance p M = .ok d) : tourDist M p = d := by
  simp [tourDist, h]

theorem loop_eq_pfold {M : Mat} :
    ∀ (ps : List (List Nat)), (∀ p ∈ ps, ∃ d, permutation_distance p M = .ok d) →
    ∀ acc, loop M ps acc = .ok (pfold (tourDist M) ps acc) := by
  intro ps
  induction ps with
  | nil => intro _ acc; simp [loop, pfold]
  | cons p rest ih =>
    intro h acc
    obtain ⟨d, hd⟩ := h p (List.mem_cons_self p rest)
    have hres : ∀ q ∈ rest, ∃ d, permutation_distance q M = .ok d :=
      fun q hq => h q (List.mem_cons_of_mem p hq)
    simp only [loop, hd, pfold, tourDist_eq hd]
    exact ih hres _

theorem pfold_stay {g : List Nat → PyF} :
    ∀ (ps : List (List Nat)) (accd : PyF) (accs : Option (List Nat)),
    (∀ p ∈ ps, PyF.lt (g p) accd = false) →
    pfold g ps (accd, accs) = (accd, accs) := by
  intro ps
  induction ps with
  | nil => intro _ _ _; simp [pfold]
  | cons p rest ih =>
    intro accd accs h
    have hp : PyF.lt (g p) accd = false := h p (List.mem_cons_self p rest)
    simp only [pfold, updateBest, hp, Bool.false_eq_true, if_false]
    exact ih accd accs fun q hq => h q (List.mem_cons_of_mem p hq)

theorem pfold_spec (g : List Nat → PyF) :
    ∀ (ps : List (List Nat)) (accd : PyF) (accs : Option (List Nat)),
    (pfold g ps (accd, accs) = (accd, accs) ∧ ∀ p ∈ ps, PyF.lt (g p) accd = false) ∨
    (∃ l₁ p l₂, ps = l₁ ++ p :: l₂ ∧
      pfold g ps (accd, accs) = (g p, some p) ∧
      PyF.lt (g p) accd = true ∧
      (∀ q ∈ l₁, PyF.lt (g q) (g p) = false ∧ g q ≠ g p) ∧
      (∀ q ∈ l₂, PyF.lt (g q) (g p) = false)) := by
  intro ps
  induction ps with
  | nil => intro accd accs; left; simp [pfold]
  | cons p₀ rest ih =>
    intro accd accs
    by_cases h₀ : PyF.lt (g p₀) accd = true
    · have hstep : pfold g (p₀ :: rest) (accd, accs) = pfold g rest (g p₀, some p₀) := by
        simp [pfold, updateBest, h₀]
      rcases ih (g p₀) (some p₀) with ⟨heq, hall⟩ | ⟨l₁, p, l₂, hsplit, heq, hlt, hl₁, hl₂⟩
      · right
        exact ⟨[], p₀, rest, by simp, by rw [hstep, heq], h₀, by simp, hall⟩
      · right
        refine ⟨p₀ :: l₁, p, l₂, by simp [hsplit], by rw [hstep, heq],
          PyF.lt_trans hlt h₀, ?_, hl₂⟩
        intro q hq
        rcases List.mem_cons.mp hq with rfl | hq'
        · refine ⟨PyF.lt_asymm hlt, fun he => ?_⟩
          rw [he] at hlt
          rw [PyF.lt_irrefl] at hlt
          exact absurd hlt (by simp)
        · exact hl₁ q hq'
    · have h₀' : PyF.lt (g p₀) accd = false := by
        simpa using h₀
      have hstep : pfold g (p₀ :: rest) (accd, accs) = pfold g rest (accd, accs) := by
        simp [pfold, updateBest, h₀']
      rcases ih accd accs with ⟨heq, hall⟩ | ⟨l₁, p, l₂, hsplit, heq, hlt, hl₁, hl₂⟩
      · left
        refine ⟨by rw [hstep, heq], ?_⟩
        intro q hq
        rcases List.mem_cons.mp hq with rfl | hq'
        · exact h₀'
        · exact hall q hq'
      · right
        refine ⟨p₀ :: l₁, p, l₂, by simp [hsplit], by rw [hstep, heq], hlt, ?_, hl₂⟩
        intro q hq
        rcases List.mem_cons.mp hq with rfl | hq'
        · constructor
          · cases hqp : PyF.lt (g q) (g p) with
            | false => rfl
            | true =>
              have : PyF.lt (g q) accd = true := PyF.lt_trans hqp hlt
              rw [this] at h₀'
              exact absurd h₀' (by simp)
          · intro he
            rw [he] at h₀'
            rw [hlt] at h₀'
            exact absurd h₀' (by simp)
        · exact hl₁ q hq'

/-! ### Matrix access -/

theorem matSquare_spec {M : Mat} {n : Nat} (h : matSquare M n = true) :
    M.length = n ∧ ∀ row ∈ M, row.length = n := by
  simp only [matSquare, Bool.and_eq_true, beq_iff_eq, List.all_eq_true] at h
  exact h

theorem mget_spec {M : Mat} {n i j : Nat} (hsq : matSquare M n = true)
    (hi : i < n) (hj : j < n) :
    ∃ row x, M.get? i = some row ∧ row ∈ M ∧ row.get? j = some x ∧ x ∈ row ∧
      mget M i j = some x := by
  obtain ⟨hlen, hrows⟩ := matSquare_spec hsq
  have hi' : i < M.length := by omega
  refine ⟨M.get ⟨i, hi'⟩, ?_⟩
  have hrow : M.get ⟨i, hi'⟩ ∈ M := List.get_mem M i hi'
  have hj' : j < (M.get ⟨i, hi'⟩).length := by
    rw [hrows _ hrow]; omega
  refine ⟨(M.get ⟨i, hi'⟩).get ⟨j, hj'⟩, List.get?_eq_get hi', hrow,
    List.get?_eq_get hj', List.get_mem _ j hj', ?_⟩
  simp only [mget]
  rw [List.get?_eq_get hi']
  exact List.get?_eq_get hj'

theorem mget_fin {M : Mat} {n i j : Nat} (hsq : matSquare M n = true)
    (hfin : matFinite M = true) (hi : i < n) (hj : j < n) :
    ∃ q : ℚ, mget M i j = some (.fin q) := by
  obtain ⟨row, x, _, hrow, _, hx, hm⟩ := mget_spec hsq hi hj
  simp only [matFinite, List.all_eq_true] at hfin
  have := hfin row hrow x hx
  cases x with
  | fin q => exact ⟨q, hm⟩
  | inf => simp [PyF.isFin] at this
  | nan => simp [PyF.isFin] at this

theorem zeroColumn0_square {M : Mat} {n : Nat} (hsq : matSquare M n = true) :
    matSquare (zeroColumn0 M) n = true := by
  obtain ⟨hlen, hrows⟩ := matSquare_spec hsq
  simp only [matSquare, Bool.and_eq_true, beq_iff_eq, List.all_eq_true, zeroColumn0,
    List.length_map, List.mem_map]
  refine ⟨hlen, ?_⟩
  rintro row ⟨r, hr, rfl⟩
  rw [List.length_set]
  exact hrows r hr

theorem mget_zeroColumn0_zero {M : Mat} {n i : Nat} (hsq : matSquare M n = true)
    (hi : i < n) (hn : 0 < n) :
    mget (zeroColumn0 M) i 0 = some (.fin 0) := by
  obtain ⟨hlen, hrows⟩ := matSquare_spec hsq
  obtain ⟨row, x, hrowi, hrow, _, _, _⟩ := mget_spec hsq hi hn
  have h0 : 0 < row.length := by rw [hrows _ hrow]; omega
  simp only [mget, zeroColumn0, List.get?_map, hrowi, Option.map_some']
  show (row.set 0 (PyF.fin 0)).get? 0 = some (PyF.fin 0)
  rw [List.get?_set_eq (PyF.fin 0) 0 row, List.get?_eq_get h0]
  rfl

theorem mget_zeroColumn0_ne {M : Mat} {i j : Nat} (hj : j ≠ 0) :
    mget (zeroColumn0 M) i j = mget M i j := by
  simp only [mget, zeroColumn0, List.get?_map]
  cases hrow : M.get? i with
  | none => rfl
  | some row =>
    simp only [Option.map_some', Option.bind_some]
    exact List.get?_set_ne _ row (fun h => hj h.symm)

/-! ### Pair sums -/

theorem mget_eq_some {M : Mat} {i j : Nat} {x : PyF} (h : mget M i j = some x) :
    ∃ row, M.get? i = some row ∧ row.get? j = some x := by
  simp only [mget] at h
  cases hrow : M.get? i with
  | none => rw [hrow] at h; exact Option.noConfusion h
  | some row =>
    rw [hrow] at h
    exact ⟨row, rfl, h⟩

theorem pairSum_ok {M : Mat} :
    ∀ (l : List (Nat × Nat)), (∀ pr ∈ l, ∃ x, mget M pr.1 pr.2 = some x) →
    ∃ d, pairSum M l = .ok d := by
  intro l
  induction l with
  | nil => intro _; exact ⟨.fin 0, rfl⟩
  | cons pr rest ih =>
    intro h
    obtain ⟨x, hx⟩ := h pr (List.mem_cons_self pr rest)
    obtain ⟨d, hd⟩ := ih fun q hq => h q (List.mem_cons_of_mem pr hq)
    obtain ⟨i, j⟩ := pr
    obtain ⟨row, hrow, hcol⟩ := mget_eq_some hx
    exact ⟨PyF.add x d, by simp only [pairSum, hrow, hcol, hd]⟩

theorem pairSum_fin {M : Mat} :
    ∀ (l : List (Nat × Nat)), (∀ pr ∈ l, ∃ q : ℚ, mget M pr.1 pr.2 = some (.fin q)) →
    ∃ q : ℚ, pairSum M l = .ok (.fin q) := by
  intro l
  induction l with
  | nil => exact fun _ => ⟨0, rfl⟩
  | cons pr rest ih =>
    intro h
    obtain ⟨x, hx⟩ := h pr (List.mem_cons_self pr rest)
    obtain ⟨d, hd⟩ := ih fun q hq => h q (List.mem_cons_of_mem pr hq)
    obtain ⟨i, j⟩ := pr
    obtain ⟨row, hrow, hcol⟩ := mget_eq_some hx
    exact ⟨x + d, by simp only [pairSum, hrow, hcol, hd, PyF.add]⟩

theorem pairSum_mono {M₀ M : Mat} :
    ∀ (l : List (Nat × Nat)),
    (∀ pr ∈ l, ∃ qa qb : ℚ, mget M₀ pr.1 pr.2 = some (.fin qa) ∧
        mget M pr.1 pr.2 = some (.fin qb) ∧ qa ≤ qb) →
    ∃ qa qb : ℚ, pairSum M₀ l = .ok (.fin qa) ∧ pairSum M l = .ok (.fin qb) ∧ qa ≤ qb := by
  intro l
  induction l with
  | nil => exact fun _ => ⟨0, 0, rfl, rfl, le_refl 0⟩
  | cons pr rest ih =>
    intro h
    obtain ⟨qa, qb, ha, hb, hab⟩ := h pr (List.mem_cons_self pr rest)
    obtain ⟨sa, sb, hsa, hsb, hsab⟩ := ih fun q hq => h q (List.mem_cons_of_mem pr hq)
    obtain ⟨i, j⟩ := pr
    obtain ⟨rowa, hrowa, hcola⟩ := mget_eq_some ha
    obtain ⟨rowb, hrowb, hcolb⟩ := mget_eq_some hb
    exact ⟨qa + sa, qb + sb, by simp only [pairSum, hrowa, hcola, hsa, PyF.add],
      by simp only [pairSum, hrowb, hcolb, hsb, PyF.add], add_le_add hab hsab⟩

/-! ### Distances of valid permutations -/

theorem perm_range_lt {p : List Nat} {n : Nat}
    (hp : p.Perm (List.range' 1 (n - 1))) : ∀ x ∈ p, 1 ≤ x ∧ x < n ∧ x ≠ 0 := by
  intro x hx
  have : x ∈ List.range' 1 (n - 1) := hp.subset hx
  rw [List.mem_range'_1] at this
  omega

theorem pairs_bound {p : List Nat} {n : Nat}
    (hp : p.Perm (List.range' 1 (n - 1))) (hn : 1 ≤ n) :
    ∀ pr ∈ List.zip (0 :: p) (p ++ [0]), pr.1 < n ∧ pr.2 < n := by
  rintro ⟨i, j⟩ hpr
  obtain ⟨hi, hj⟩ := List.of_mem_zip hpr
  constructor
  · rcases List.mem_cons.mp hi with rfl | hi'
    · omega
    · exact (perm_range_lt hp i hi').2.1
  · rcases List.mem_append.mp hj with hj' | hj'
    · exact (perm_range_lt hp j hj').2.1
    · simp at hj'
      omega

theorem permutation_distance_ok {M : Mat} {n : Nat} {p : List Nat}
    (hsq : matSquare M n = true) (hn : 1 ≤ n)
    (hp : p.Perm (List.range' 1 (n - 1))) :
    permutation_distance p M = .ok (tourDist M p) := by
  have hb := pairs_bound hp hn
  have : ∃ d, permutation_distance p M = .ok d := by
    apply pairSum_ok
    intro pr hpr
    obtain ⟨hi, hj⟩ := hb pr hpr
    obtain ⟨row, x, _, _, _, _, hm⟩ := mget_spec hsq hi hj
    exact ⟨x, hm⟩
  obtain ⟨d, hd⟩ := this
  rw [hd, tourDist_eq hd]

theorem permutation_distance_fin {M : Mat} {n : Nat} {p : List Nat}
    (hsq : matSquare M n = true) (hfin : matFinite M = true) (hn : 1 ≤ n)
    (hp : p.Perm (List.range' 1 (n - 1))) :
    ∃ q : ℚ, permutation_distance p M = .ok (.fin q) := by
  have hb := pairs_bound hp hn
  apply pairSum_fin
  intro pr hpr
  obtain ⟨hi, hj⟩ := hb pr hpr
  exact mget_fin hsq hfin hi hj

theorem tourDist_isFin {M : Mat} {n : Nat} {p : List Nat}
    (hsq : matSquare M n = true) (hfin : matFinite M = true) (hn : 1 ≤ n)
    (hp : p.Perm (List.range' 1 (n - 1))) :
    PyF.isFin (tourDist M p) = true := by
  obtain ⟨q, hq⟩ := permutation_distance_fin hsq hfin hn hp
  rw [tourDist_eq hq]
  rfl

/-! ### The working matrix -/

theorem workMat_square {M : Mat} {n : Nat} {b : Bool} (hsq : matSquare M n = true) :
    matSquare (workMat M b) n = true := by
  cases b
  · simpa [workMat] using hsq
  · simpa [workMat] using zeroColumn0_square hsq

theorem zeroColumn0_finite {M : Mat} (hfin : matFinite M = true) :
    matFinite (zeroColumn0 M) = true := by
  simp only [matFinite, List.all_eq_true, zeroColumn0, List.mem_map] at hfin ⊢
  rintro row ⟨r, hr, rfl⟩ x hx
  rcases List.mem_or_eq_of_mem_set hx with hx' | rfl
  · exact hfin r hr x hx'
  · rfl

theorem workMat_finite {M : Mat} {b : Bool} (hfin : matFinite M = true) :
    matFinite (workMat M b) = true := by
  cases b
  · simpa [workMat] using hfin
  · simpa [workMat] using zeroColumn0_finite hfin

theorem setColumn0_ok {M : Mat} {n : Nat} (hsq : matSquare M n = true) (hn : 1 ≤ n) :
    setColumn0 M = .ok (zeroColumn0 M) := by
  obtain ⟨hlen, hrows⟩ := matSquare_spec hsq
  cases M with
  | nil => rw [List.length_nil] at hlen; omega
  | cons r t =>
    have hr : r.length = n := hrows r (List.mem_cons_self r t)
    unfold setColumn0
    rw [if_pos]
    simp only [List.headD_cons, hr]
    exact hn

theorem solve_work_ok {M : Mat} {n : Nat} {b : Bool} (hsq : matSquare M n = true)
    (hn : 1 ≤ n) :
    (if b then setColumn0 M else Except.ok M) = Except.ok (workMat M b) := by
  cases b
  · rfl
  · show setColumn0 M = Except.ok (workMat M true)
    rw [setColumn0_ok hsq hn]
    rfl

/-! ### The master specification of the solver -/

theorem solve_spec {M : Mat} {n : Nat} {b : Bool}
    (hsq : matSquare M n = true) (hn : 1 ≤ n)
    (hany : ∃ p₀ ∈ perms (List.range' 1 (n - 1)),
      PyF.isFin (tourDist (workMat M b) p₀) = true) :
    ∃ l₁ p l₂,
      perms (List.range' 1 (n - 1)) = l₁ ++ p :: l₂ ∧
      solve_tsp_brute_force M b =
        .ok ((0 :: p) ++ (if b then [] else [0]), tourDist (workMat M b) p) ∧
      PyF.isFin (tourDist (workMat M b) p) = true ∧
      (∀ q ∈ l₁, PyF.lt (tourDist (workMat M b) q) (tourDist (workMat M b) p) = false ∧
        tourDist (workMat M b) q ≠ tourDist (workMat M b) p) ∧
      (∀ q ∈ l₂, PyF.lt (tourDist (workMat M b) q) (tourDist (workMat M b) p) = false) := by
  obtain ⟨hlen, -⟩ := matSquare_spec hsq
  have hsqw : matSquare (workMat M b) n = true := workMat_square hsq
  have hok : ∀ p ∈ perms (List.range' 1 (n - 1)),
      ∃ d, permutation_distance p (workMat M b) = .ok d :=
    fun p hp => ⟨_, permutation_distance_ok hsqw hn (perms_mem.mp hp)⟩
  have hloop := loop_eq_pfold (perms (List.range' 1 (n - 1))) hok (PyF.inf, none)
  rcases pfold_spec (tourDist (workMat M b)) (perms (List.range' 1 (n - 1))) PyF.inf none
    with ⟨-, hall⟩ | ⟨l₁, p, l₂, hsplit, heq, hlt, hl₁, hl₂⟩
  · obtain ⟨p₀, hp₀, hfin₀⟩ := hany
    have := hall p₀ hp₀
    simp [PyF.isFin_lt_inf hfin₀] at this
  · refine ⟨l₁, p, l₂, hsplit, ?_, PyF.lt_fin_left hlt, hl₁, hl₂⟩
    simp only [solve_tsp_brute_force, hlen, solve_work_ok hsq hn, searchBody, hloop, heq]

theorem finite_gives_candidate {M : Mat} {n : Nat} {b : Bool}
    (hsq : matSquare M n = true) (hfin : matFinite M = true) (hn : 1 ≤ n) :
    ∃ p₀ ∈ perms (List.range' 1 (n - 1)),
      PyF.isFin (tourDist (workMat M b) p₀) = true :=
  ⟨List.range' 1 (n - 1), perms_mem.mpr (List.Perm.refl _),
    tourDist_isFin (workMat_square hsq) (workMat_finite hfin) hn (List.Perm.refl _)⟩

theorem PyF.le_of_fin_not_lt {a b : PyF} (ha : PyF.isFin a = true) (hb : PyF.isFin b = true)
    (h : PyF.lt b a = false) : PyF.le a b = true := by
  cases a <;> cases b <;> simp_all [PyF.lt, PyF.le, PyF.isFin] <;> exact lt_or_eq_of_le h

theorem PyF.fin_lt_of_not_lt_ne {a b : PyF} (ha : PyF.isFin a = true) (hb : PyF.isFin b = true)
    (h₁ : PyF.lt b a = false) (h₂ : b ≠ a) : PyF.lt a b = true := by
  cases a with
  | fin qa =>
    cases b with
    | fin qb =>
      simp only [PyF.lt, decide_eq_false_iff_not, decide_eq_true_eq] at h₁ ⊢
      have hne : qb ≠ qa := fun he => h₂ (by rw [he])
      exact lt_of_le_of_ne (le_of_not_lt h₁) (Ne.symm hne)
    | inf => simp [PyF.isFin] at hb
    | nan => simp [PyF.isFin] at hb
  | inf => simp [PyF.isFin] at ha
  | nan => simp [PyF.isFin] at ha

theorem PyF.not_fin_lt_inf {a : PyF} (h : PyF.isFin a = false) :
    PyF.lt a .inf = false := by
  cases a <;> simp_all [PyF.lt, PyF.isFin]

/-! ### Claims -/

/-- C1: for every n-by-n matrix with n ≥ 1 and finite entries, and each
value of the open flag, `solve_tsp_brute_force` returns the minimum, over
all permutations of {1, ..., n-1}, of the paired-sum distance against the
working matrix (the input for closed tours, the column-0-zeroed copy for
open tours), and a tour achieving that minimum. -/
theorem c1_returns_minimum {M : Mat} {n : Nat} {b : Bool}
    (hsq : matSquare M n = true) (hn : 1 ≤ n) (hfin : matFinite M = true) :
    ∃ p d,
      solve_tsp_brute_force M b = .ok ((0 :: p) ++ (if b then [] else [0]), d) ∧
      p.Perm (List.range' 1 (n - 1)) ∧
      permutation_distance p (workMat M b) = .ok d ∧
      ∀ q, q.Perm (List.range' 1 (n - 1)) →
        ∃ dq, permutation_distance q (workMat M b) = .ok dq ∧ PyF.le d dq = true := by
  obtain ⟨l₁, p, l₂, hsplit, hsolve, hfinp, hl₁, hl₂⟩ :=
    solve_spec hsq hn (finite_gives_candidate hsq hfin hn)
  have hpmem : p ∈ perms (List.range' 1 (n - 1)) := by
    rw [hsplit]; exact List.mem_append_right l₁ (List.mem_cons_self p l₂)
  have hpperm := perms_mem.mp hpmem
  refine ⟨p, tourDist (workMat M b) p, hsolve, hpperm,
    permutation_distance_ok (workMat_square hsq) hn hpperm, ?_⟩
  intro q hq
  refine ⟨tourDist (workMat M b) q, permutation_distance_ok (workMat_square hsq) hn hq, ?_⟩
  have hfinq : PyF.isFin (tourDist (workMat M b) q) = true :=
    tourDist_isFin (workMat_square hsq) (workMat_finite hfin) hn hq
  have hqle : PyF.lt (tourDist (workMat M b) q) (tourDist (workMat M b) p) = false := by
    have hqmem : q ∈ perms (List.range' 1 (n - 1)) := perms_mem.mpr hq
    rw [hsplit] at hqmem
    rcases List.mem_append.mp hqmem with h1 | h2
    · exact (hl₁ q h1).1
    · rcases List.mem_cons.mp h2 with rfl | h3
      · exact PyF.lt_irrefl _
      · exact hl₂ q h3
  exact PyF.le_of_fin_not_lt hfinp hfinq hqle

/-- C1 witness at the 3-node matrix [[0,1,2],[1,0,3],[2,3,0]], closed. -/
theorem c1_witness :
    ∃ p d,
      solve_tsp_brute_force
          [[.fin 0, .fin 1, .fin 2], [.fin 1, .fin 0, .fin 3], [.fin 2, .fin 3, .fin 0]]
          false =
        .ok ((0 :: p) ++ (if false then [] else [0]), d) ∧
      p.Perm (List.range' 1 (3 - 1)) ∧
      permutation_distance p
          (workMat [[.fin 0, .fin 1, .fin 2], [.fin 1, .fin 0, .fin 3],
            [.fin 2, .fin 3, .fin 0]] false) =
        .ok d ∧
      ∀ q, q.Perm (List.range' 1 (3 - 1)) →
        ∃ dq, permutation_distance q
            (workMat [[.fin 0, .fin 1, .fin 2], [.fin 1, .fin 0, .fin 3],
              [.fin 2, .fin 3, .fin 0]] false) =
          .ok dq ∧ PyF.le d dq = true :=
  @c1_returns_minimum
    [[.fin 0, .fin 1, .fin 2], [.fin 1, .fin 0, .fin 3], [.fin 2, .fin 3, .fin 0]]
    3 false (by decide) (by decide) (by decide)

/-- C2: for every n-by-n matrix with n ≥ 1 and finite entries, the returned
tour visits each node exactly once starting at 0, with 0 appended again
exactly in the closed case; its length is n (open) or n + 1 (closed). -/
theorem c2_tour_validity {M : Mat} {n : Nat} {b : Bool}
    (hsq : matSquare M n = true) (hn : 1 ≤ n) (hfin : matFinite M = true) :
    ∃ p d,
      solve_tsp_brute_force M b = .ok ((0 :: p) ++ (if b then [] else [0]), d) ∧
      (0 :: p).Perm (List.range n) ∧
      ((0 :: p) ++ (if b then [] else [0])).length = (if b then n else n + 1) := by
  obtain ⟨l₁, p, l₂, hsplit, hsolve, -, -, -⟩ :=
    solve_spec hsq hn (finite_gives_candidate hsq hfin hn)
  have hpmem : p ∈ perms (List.range' 1 (n - 1)) := by
    rw [hsplit]; exact List.mem_append_right l₁ (List.mem_cons_self p l₂)
  have hpperm := perms_mem.mp hpmem
  obtain ⟨m, rfl⟩ : ∃ m, n = m + 1 := ⟨n - 1, by omega⟩
  have hrange : List.range (m + 1) = 0 :: List.range' 1 m := by
    rw [List.range_eq_range', List.range'_succ]
  have hm : m + 1 - 1 = m := by omega
  rw [hm] at hpperm
  have hplen : p.length = m := by
    have := hpperm.length_eq
    simpa [List.length_range'] using this
  refine ⟨p, tourDist (workMat M b) p, by simpa [hm] using hsolve, ?_, ?_⟩
  · rw [hrange]
    exact hpperm.cons 0
  · cases b <;> simp [hplen]

/-- C2 witness at the 3-node matrix, open case. -/
theorem c2_witness :
    ∃ p d,
      solve_tsp_brute_force
          [[.fin 0, .fin 1, .fin 2], [.fin 1, .fin 0, .fin 3], [.fin 2, .fin 3, .fin 0]]
          true =
        .ok ((0 :: p) ++ (if true then [] else [0]), d) ∧
      (0 :: p).Perm (List.range 3) ∧
      ((0 :: p) ++ (if true then [] else [0])).length = (if true then 3 else 3 + 1) :=
  @c2_tour_validity
    [[.fin 0, .fin 1, .fin 2], [.fin 1, .fin 0, .fin 3], [.fin 2, .fin 3, .fin 0]]
    3 true (by decide) (by decide) (by decide)

/-- C3: on the matrix [[0,1,2],[1,0,3],[2,3,0]] the closed solve returns
distance 6 with the tour [0,1,2,0] (the first of the two tied optimal
orders, the other candidate [2,1] also costing 6), and the open solve
returns the tour [0,1,2] with distance 4. -/
theorem c3_literal_scenario :
    solve_tsp_brute_force
        [[.fin 0, .fin 1, .fin 2], [.fin 1, .fin 0, .fin 3], [.fin 2, .fin 3, .fin 0]]
        false =
      .ok ([0, 1, 2, 0], .fin 6) ∧
    permutation_distance [2, 1]
        [[.fin 0, .fin 1, .fin 2], [.fin 1, .fin 0, .fin 3], [.fin 2, .fin 3, .fin 0]] =
      .ok (.fin 6) ∧
    solve_tsp_brute_force
        [[.fin 0, .fin 1, .fin 2], [.fin 1, .fin 0, .fin 3], [.fin 2, .fin 3, .fin 0]]
        true =
      .ok ([0, 1, 2], .fin 4) := by
  refine ⟨?_, ?_, ?_⟩ <;>
    norm_num [solve_tsp_brute_force, searchBody, setColumn0, perms, permsAux, selections, loop, permutation_distance,
      pairSum, mget, updateBest, workMat, zeroColumn0, PyF.add, PyF.lt]

/-- C9: the two components of the result are mutually consistent: the
returned distance is the paired-sum distance of the returned tour's
non-origin permutation against the working matrix. -/
theorem c9_components_consistent {M : Mat} {n : Nat} {b : Bool}
    (hsq : matSquare M n = true) (hn : 1 ≤ n) (hfin : matFinite M = true) :
    ∃ p d,
      solve_tsp_brute_force M b = .ok ((0 :: p) ++ (if b then [] else [0]), d) ∧
      permutation_distance p (workMat M b) = .ok d := by
  obtain ⟨l₁, p, l₂, hsplit, hsolve, -, -, -⟩ :=
    solve_spec hsq hn (finite_gives_candidate hsq hfin hn)
  have hpmem : p ∈ perms (List.range' 1 (n - 1)) := by
    rw [hsplit]; exact List.mem_append_right l₁ (List.mem_cons_self p l₂)
  exact ⟨p, tourDist (workMat M b) p, hsolve,
    permutation_distance_ok (workMat_square hsq) hn (perms_mem.mp hpmem)⟩

/-- C9 witness at the 3-node matrix, open case. -/
theorem c9_witness :
    ∃ p d,
      solve_tsp_brute_force
          [[.fin 0, .fin 1, .fin 2], [.fin 1, .fin 0, .fin 3], [.fin 2, .fin 3, .fin 0]]
          true =
        .ok ((0 :: p) ++ (if true then [] else [0]), d) ∧
      permutation_distance p
          (workMat [[.fin 0, .fin 1, .fin 2], [.fin 1, .fin 0, .fin 3],
            [.fin 2, .fin 3, .fin 0]] true) =
        .ok d :=
  @c9_components_consistent
    [[.fin 0, .fin 1, .fin 2], [.fin 1, .fin 0, .fin 3], [.fin 2, .fin 3, .fin 0]]
    3 true (by decide) (by decide) (by decide)

/-- C10 counterexample: for the 0-by-0 matrix with the open flag, the call
fails at the column write `distance_matrix[:, 0] = 0` with the axis-1
`IndexError`, before any permutation is evaluated — not with the axis-0
`IndexError` that `_permutation_distance` raises when it indexes the empty
matrix, as the claim asserts for both flags. -/
theorem c10_counterexample :
    solve_tsp_brute_force [] true = .error (.indexError 1) ∧
    setColumn0 [] = .error (.indexError 1) ∧
    permutation_distance [] [] = .error (.indexError 0) ∧
    Err.indexError 1 ≠ Err.indexError 0 :=
  ⟨rfl, rfl, rfl, by decide⟩

/-- C10 (amended): the 0-by-0 matrix fails with an out-of-bounds
`IndexError` for both flags, but by different mechanisms: with the closed
flag the single empty permutation is evaluated and `_permutation_distance`
fails indexing row and column 0 of the empty matrix (axis-0 `IndexError`);
with the open flag the call fails earlier, at the axis-1 bounds check of
the column write `distance_matrix[:, 0] = 0`, before any permutation is
evaluated. -/
theorem c10_empty_matrix :
    solve_tsp_brute_force [] false = .error (.indexError 0) ∧
    permutation_distance [] [] = .error (.indexError 0) ∧
    perms (List.range' 1 (List.length ([] : Mat) - 1)) = [[]] ∧
    solve_tsp_brute_force [] true = .error (.indexError 1) ∧
    setColumn0 [] = .error (.indexError 1) :=
  ⟨rfl, rfl, rfl, rfl, rfl⟩

/-! ### The enumeration order is lexicographic on a sorted input -/

theorem selections_sublist {l : List Nat} {q : Nat × List Nat} (h : q ∈ selections l) :
    q.2.Sublist l := by
  induction l generalizing q with
  | nil => simp [selections] at h
  | cons a rest ih =>
    simp only [selections, List.mem_cons, List.mem_map] at h
    rcases h with h | ⟨r, hr, rfl⟩
    · subst h; exact List.sublist_cons_self a rest
    · exact List.Sublist.cons₂ a (ih hr)

theorem selections_firsts (l : List Nat) : (selections l).map Prod.fst = l := by
  induction l with
  | nil => rfl
  | cons a rest ih =>
    simp only [selections, List.map_cons, List.map_map]
    have hcomp : (Prod.fst ∘ fun q : Nat × List Nat => (q.1, a :: q.2)) = Prod.fst := rfl
    rw [hcomp, ih]

theorem permsAux_lex_sorted : ∀ (fuel : Nat) (l : List Nat), l.length = fuel →
    l.Pairwise (· < ·) →
    (permsAux fuel l).Pairwise (List.Lex (· < ·)) := by
  intro fuel
  induction fuel with
  | zero => intro l _ _; simp [permsAux]
  | succ n ih =>
    intro l hl hsorted
    simp only [permsAux]
    rw [List.flatMap_def, List.pairwise_join]
    constructor
    · intro block hblock
      rw [List.mem_map] at hblock
      obtain ⟨q, hq, rfl⟩ := hblock
      rw [List.pairwise_map]
      have hlen : q.2.length = n := by have := selections_length hq; omega
      have hsorted' : q.2.Pairwise (· < ·) := hsorted.sublist (selections_sublist hq)
      exact (ih q.2 hlen hsorted').imp fun hx => List.Lex.cons hx
    · rw [List.pairwise_map]
      have hfst : (selections l).Pairwise (fun a b => a.1 < b.1) := by
        have := hsorted
        rw [← selections_firsts l, List.pairwise_map] at this
        exact this
      refine hfst.imp_of_mem ?_
      rintro q q' hq hq' hlt x hx y hy
      simp only [List.mem_map] at hx hy
      obtain ⟨t, -, rfl⟩ := hx
      obtain ⟨t', -, rfl⟩ := hy
      exact List.Lex.rel hlt

theorem perms_lex_sorted {l : List Nat} (h : l.Pairwise (· < ·)) :
    (perms l).Pairwise (List.Lex (· < ·)) :=
  permsAux_lex_sorted l.length l rfl h

/-- C4: for every square matrix with n ≥ 2 and finite entries and each flag,
the solver returns the first permutation, in enumeration order (which is
lexicographic over the sorted sequence 1, ..., n-1), achieving the minimal
distance: every earlier candidate is strictly worse (strict-less-than
replacement, so a later tied candidate never displaces an earlier one), and
no later candidate is strictly better. -/
theorem c4_first_tie_wins {M : Mat} {n : Nat} {b : Bool}
    (hsq : matSquare M n = true) (hn2 : 2 ≤ n) (hfin : matFinite M = true) :
    ∃ l₁ p l₂ d,
      perms (List.range' 1 (n - 1)) = l₁ ++ p :: l₂ ∧
      (perms (List.range' 1 (n - 1))).Pairwise (List.Lex (· < ·)) ∧
      solve_tsp_brute_force M b = .ok ((0 :: p) ++ (if b then [] else [0]), d) ∧
      permutation_distance p (workMat M b) = .ok d ∧
      (∀ q ∈ l₁, PyF.lt d (tourDist (workMat M b) q) = true) ∧
      (∀ q ∈ l₂, PyF.lt (tourDist (workMat M b) q) d = false) := by
  have hn1 : 1 ≤ n := by omega
  obtain ⟨l₁, p, l₂, hsplit, hsolve, hfinp, hl₁, hl₂⟩ :=
    @solve_spec M n b hsq hn1 (@finite_gives_candidate M n b hsq hfin hn1)
  have hpmem : p ∈ perms (List.range' 1 (n - 1)) := by
    rw [hsplit]; exact List.mem_append_right l₁ (List.mem_cons_self p l₂)
  have hpperm := perms_mem.mp hpmem
  refine ⟨l₁, p, l₂, tourDist (workMat M b) p, hsplit,
    perms_lex_sorted (List.pairwise_lt_range' 1 (n - 1)),
    hsolve, permutation_distance_ok (workMat_square hsq) hn1 hpperm, ?_, hl₂⟩
  intro q hq
  have hqperm : q.Perm (List.range' 1 (n - 1)) := by
    apply perms_mem.mp
    rw [hsplit]
    exact List.mem_append_left _ hq
  have hfinq : PyF.isFin (tourDist (workMat M b) q) = true :=
    tourDist_isFin (workMat_square hsq) (workMat_finite hfin) hn1 hqperm
  exact PyF.fin_lt_of_not_lt_ne hfinp hfinq (hl₁ q hq).1 (hl₁ q hq).2

/-- C4 witness at the 3-node matrix, closed case. -/
theorem c4_witness :
    ∃ l₁ p l₂ d,
      perms (List.range' 1 (3 - 1)) = l₁ ++ p :: l₂ ∧
      (perms (List.range' 1 (3 - 1))).Pairwise (List.Lex (· < ·)) ∧
      solve_tsp_brute_force
          [[.fin 0, .fin 1, .fin 2], [.fin 1, .fin 0, .fin 3], [.fin 2, .fin 3, .fin 0]]
          false =
        .ok ((0 :: p) ++ (if false then [] else [0]), d) ∧
      permutation_distance p
          (workMat [[.fin 0, .fin 1, .fin 2], [.fin 1, .fin 0, .fin 3],
            [.fin 2, .fin 3, .fin 0]] false) =
        .ok d ∧
      (∀ q ∈ l₁, PyF.lt d (tourDist (workMat [[.fin 0, .fin 1, .fin 2],
        [.fin 1, .fin 0, .fin 3], [.fin 2, .fin 3, .fin 0]] false) q) = true) ∧
      (∀ q ∈ l₂, PyF.lt (tourDist (workMat [[.fin 0, .fin 1, .fin 2],
        [.fin 1, .fin 0, .fin 3], [.fin 2, .fin 3, .fin 0]] false) q) d = false) :=
  @c4_first_tie_wins
    [[.fin 0, .fin 1, .fin 2], [.fin 1, .fin 0, .fin 3], [.fin 2, .fin 3, .fin 0]]
    3 false (by decide) (by decide) (by decide)

theorem PyF.fin_not_lt {x y : ℚ} : PyF.lt (.fin x) (.fin y) = false ↔ y ≤ x := by
  simp [PyF.lt]

theorem col0Nonneg_spec {M : Mat} {i : Nat} {q : ℚ} (hcol : col0Nonneg M = true)
    (h : mget M i 0 = some (.fin q)) : 0 ≤ q := by
  simp only [col0Nonneg, List.all_eq_true] at hcol
  simp only [mget] at h
  cases hrow : M.get? i with
  | none => rw [hrow] at h; exact Option.noConfusion h
  | some row =>
    rw [hrow] at h
    simp only [Option.some_bind] at h
    have hmem : row ∈ M := List.get?_mem hrow
    have := hcol row hmem
    rw [h] at this
    simpa using this

/-- C5 counterexample: on [[0,1],[-1,0]] the closed distance is 0 and the
open distance is 1, so closed ≥ open fails (column 0 has a negative entry). -/
theorem c5_counterexample :
    solve_tsp_brute_force [[.fin 0, .fin 1], [.fin (-1), .fin 0]] false =
      .ok ([0, 1, 0], .fin 0) ∧
    solve_tsp_brute_force [[.fin 0, .fin 1], [.fin (-1), .fin 0]] true =
      .ok ([0, 1], .fin 1) ∧
    PyF.le (.fin 1) (.fin 0) = false := by
  refine ⟨?_, ?_, ?_⟩ <;>
    norm_num [solve_tsp_brute_force, searchBody, setColumn0, perms, permsAux, selections, loop, permutation_distance,
      pairSum, mget, updateBest, workMat, zeroColumn0, PyF.add, PyF.lt, PyF.le]

/-- C5 (amended): for every square matrix with n ≥ 1, finite entries and a
nonnegative column 0, the closed-tour distance is at least the open-tour
distance on the same matrix. -/
theorem c5_closed_ge_open {M : Mat} {n : Nat}
    (hsq : matSquare M n = true) (hn : 1 ≤ n) (hfin : matFinite M = true)
    (hcol : col0Nonneg M = true) :
    ∃ tc dc topen dopen,
      solve_tsp_brute_force M false = .ok (tc, dc) ∧
      solve_tsp_brute_force M true = .ok (topen, dopen) ∧
      PyF.le dopen dc = true := by
  obtain ⟨lc₁, pc, lc₂, hsplitc, hsolvec, hfinpc, -, -⟩ :=
    @solve_spec M n false hsq hn (@finite_gives_candidate M n false hsq hfin hn)
  obtain ⟨lo₁, po, lo₂, hsplito, hsolveo, hfinpo, hlo₁, hlo₂⟩ :=
    @solve_spec M n true hsq hn (@finite_gives_candidate M n true hsq hfin hn)
  have hpcmem : pc ∈ perms (List.range' 1 (n - 1)) := by
    rw [hsplitc]; exact List.mem_append_right lc₁ (List.mem_cons_self pc lc₂)
  have hpcperm := perms_mem.mp hpcmem
  -- the open working matrix is the column-0-zeroed copy
  have hwork : workMat M true = zeroColumn0 M := rfl
  have hwork' : workMat M false = M := rfl
  -- the open minimum is not beaten by the closed optimum pc
  have hnotlt : PyF.lt (tourDist (workMat M true) pc) (tourDist (workMat M true) po) = false := by
    have hmem : pc ∈ perms (List.range' 1 (n - 1)) := hpcmem
    rw [hsplito] at hmem
    rcases List.mem_append.mp hmem with h1 | h2
    · exact (hlo₁ pc h1).1
    · rcases List.mem_cons.mp h2 with heq | h3
      · rw [heq]; exact PyF.lt_irrefl _
      · exact hlo₂ pc h3
  -- pointwise: the zeroed matrix is entrywise below the input on the tour pairs
  have hmono : ∃ qa qb : ℚ,
      pairSum (zeroColumn0 M) (List.zip (0 :: pc) (pc ++ [0])) = .ok (.fin qa) ∧
      pairSum M (List.zip (0 :: pc) (pc ++ [0])) = .ok (.fin qb) ∧ qa ≤ qb := by
    apply pairSum_mono
    intro pr hpr
    obtain ⟨hi, hj⟩ := pairs_bound hpcperm hn pr hpr
    obtain ⟨qb, hqb⟩ := mget_fin hsq hfin hi hj
    by_cases hj0 : pr.2 = 0
    · refine ⟨0, qb, ?_, hqb, ?_⟩
      · rw [hj0] at hqb ⊢
        exact mget_zeroColumn0_zero hsq hi (by omega)
      · rw [hj0] at hqb
        exact col0Nonneg_spec hcol hqb
    · exact ⟨qb, qb, by rw [mget_zeroColumn0_ne hj0]; exact hqb, hqb, le_refl qb⟩
  obtain ⟨qa, qb, hA, hB, hab⟩ := hmono
  have hopc : tourDist (workMat M true) pc = .fin qa := by
    rw [hwork]; exact tourDist_eq hA
  have hcpc : tourDist (workMat M false) pc = .fin qb := by
    rw [hwork']; exact tourDist_eq hB
  obtain ⟨ro, hro⟩ : ∃ r : ℚ, tourDist (workMat M true) po = .fin r := by
    cases hx : tourDist (workMat M true) po with
    | fin r => exact ⟨r, rfl⟩
    | inf => rw [hx] at hfinpo; simp [PyF.isFin] at hfinpo
    | nan => rw [hx] at hfinpo; simp [PyF.isFin] at hfinpo
  refine ⟨(0 :: pc) ++ [0], tourDist (workMat M false) pc,
    (0 :: po) ++ [], tourDist (workMat M true) po, by simpa using hsolvec,
    by simpa using hsolveo, ?_⟩
  rw [hro, hcpc, PyF.le_fin_iff]
  rw [hopc, hro, PyF.fin_not_lt] at hnotlt
  exact le_trans hnotlt hab

/-- C5 witness at the 3-node symmetric matrix. -/
theorem c5_witness :
    ∃ tc dc topen dopen,
      solve_tsp_brute_force
          [[.fin 0, .fin 1, .fin 2], [.fin 1, .fin 0, .fin 3], [.fin 2, .fin 3, .fin 0]]
          false =
        .ok (tc, dc) ∧
      solve_tsp_brute_force
          [[.fin 0, .fin 1, .fin 2], [.fin 1, .fin 0, .fin 3], [.fin 2, .fin 3, .fin 0]]
          true =
        .ok (topen, dopen) ∧
      PyF.le dopen dc = true :=
  @c5_closed_ge_open
    [[.fin 0, .fin 1, .fin 2], [.fin 1, .fin 0, .fin 3], [.fin 2, .fin 3, .fin 0]]
    3 (by decide) (by decide) (by decide) (by decide)

/-- C6 counterexample: on the all-infinite matrix [[inf]] no candidate ever
compares below the infinite initial best, `best_solution` stays `None`, and
the call fails with a `TypeError` instead of returning an infinite best
distance. -/
theorem c6_counterexample :
    solve_tsp_brute_force [[.inf]] false = .error .typeError := by
  decide

/-- C6 (amended): NaN and infinite entries are not rejected; the call
completes whenever some candidate's distance is finite (it compares below
the infinite initial best), but when no candidate's distance is finite the
best solution stays `None` and the call fails with a `TypeError` rather
than returning an infinite distance. -/
theorem c6_inf_nan_no_validation {M : Mat} {n : Nat} {b : Bool}
    (hsq : matSquare M n = true) (hn : 1 ≤ n) :
    ((perms (List.range' 1 (n - 1))).any
        (fun p => PyF.isFin (tourDist (workMat M b) p)) = true →
      ∃ t d, solve_tsp_brute_force M b = .ok (t, d)) ∧
    ((perms (List.range' 1 (n - 1))).all
        (fun p => !PyF.isFin (tourDist (workMat M b) p)) = true →
      solve_tsp_brute_force M b = .error .typeError) := by
  constructor
  · intro hany
    rw [List.any_eq_true] at hany
    obtain ⟨p₀, hp₀, hfin₀⟩ := hany
    obtain ⟨l₁, p, l₂, -, hsolve, -, -, -⟩ := @solve_spec M n b hsq hn ⟨p₀, hp₀, hfin₀⟩
    exact ⟨_, _, hsolve⟩
  · intro hall
    rw [List.all_eq_true] at hall
    have hok : ∀ p ∈ perms (List.range' 1 (n - 1)),
        ∃ d, permutation_distance p (workMat M b) = .ok d :=
      fun p hp => ⟨_, permutation_distance_ok (workMat_square hsq) hn (perms_mem.mp hp)⟩
    have hloop := loop_eq_pfold (perms (List.range' 1 (n - 1))) hok (PyF.inf, none)
    have hstay : pfold (tourDist (workMat M b)) (perms (List.range' 1 (n - 1)))
        (PyF.inf, none) = (PyF.inf, none) := by
      apply pfold_stay
      intro p hp
      have hnf := hall p hp
      rw [Bool.not_eq_eq_eq_not, Bool.not_true] at hnf
      exact PyF.not_fin_lt_inf hnf
    obtain ⟨hlen, -⟩ := matSquare_spec hsq
    simp only [solve_tsp_brute_force, hlen, solve_work_ok hsq hn, searchBody, hloop, hstay]

/-- C6 witness: a matrix with infinite entries but one finite candidate
completes, and the all-infinite 1-by-1 matrix raises the `TypeError`. -/
theorem c6_witness :
    (∃ t d, solve_tsp_brute_force [[.inf, .fin 1], [.fin 1, .inf]] false = .ok (t, d)) ∧
    solve_tsp_brute_force [[.inf]] false = .error .typeError :=
  ⟨(@c6_inf_nan_no_validation [[.inf, .fin 1], [.fin 1, .inf]] 2 false
      (by decide) (by decide)).1 (by decide),
    (@c6_inf_nan_no_validation [[.inf]] 1 false
      (by decide) (by decide)).2 (by decide)⟩

/-- C7 counterexample: on the 1-by-1 matrix [[5]] the open solve returns
distance 0 (the zeroed working entry), not the matrix entry 5. -/
theorem c7_counterexample :
    solve_tsp_brute_force [[.fin 5]] true = .ok ([0], .fin 0) ∧
    PyF.fin 0 ≠ PyF.fin 5 := by
  constructor
  · norm_num [solve_tsp_brute_force, searchBody, setColumn0, perms, permsAux, selections, loop, permutation_distance,
      pairSum, mget, updateBest, workMat, zeroColumn0, PyF.add, PyF.lt]
  · intro h
    rw [PyF.fin.injEq] at h
    norm_num at h

/-- C7 (amended): for every 1-by-1 matrix with a finite entry v, the closed
solve returns tour [0, 0] with distance v = matrix[0][0], and the open solve
returns tour [0] with distance 0, the entry of the column-0-zeroed working
copy. -/
theorem c7_one_by_one (v : ℚ) :
    solve_tsp_brute_force [[.fin v]] false = .ok ([0, 0], .fin v) ∧
    solve_tsp_brute_force [[.fin v]] true = .ok ([0], .fin 0) := by
  constructor <;>
    simp [solve_tsp_brute_force, searchBody, setColumn0, perms, permsAux, selections, loop, permutation_distance,
      pairSum, mget, updateBest, workMat, zeroColumn0, PyF.add, PyF.lt]

/-- C7 witness at v = 5. -/
theorem c7_witness :
    solve_tsp_brute_force [[.fin 5]] false = .ok ([0, 0], .fin 5) ∧
    solve_tsp_brute_force [[.fin 5]] true = .ok ([0], .fin 0) :=
  c7_one_by_one 5

theorem readArr_concat {h : Heap} {x : Mat} : readArr (h ++ [x]) h.length = x := by
  simp only [readArr, List.getD]
  rw [List.get?_concat_length]
  rfl

theorem readArr_set_self {h : Heap} {a : Nat} {x : Mat} (ha : a < h.length) :
    readArr (h.set a x) a = x := by
  simp only [readArr, List.getD]
  rw [List.get?_set_eq x a h, List.get?_eq_get ha]
  rfl

/-- C8: the caller's array object is unchanged when the solver returns: the
heap cell the input address points to is the same afterwards (the open case
writes only to the freshly allocated copy), the result agrees with the pure
function of the input value, and in the closed case the heap is not touched
at all. -/
theorem c8_no_mutation {h : Heap} {a : Nat} {b : Bool} (ha : a < h.length) :
    ((solve_tsp_brute_force_heap h a b).2).get? a = h.get? a ∧
    (solve_tsp_brute_force_heap h a b).1 = solve_tsp_brute_force (readArr h a) b ∧
    (solve_tsp_brute_force_heap h a false).2 = h := by
  have hne : h.length ≠ a := by omega
  have hopen : solve_tsp_brute_force_heap h a true =
      (match setColumn0 (readArr (h ++ [readArr h a]) h.length) with
       | .error e => (.error e, h ++ [readArr h a])
       | .ok arr =>
         (searchBody (readArr ((h ++ [readArr h a]).set h.length arr) h.length)
            (List.range' 1 ((readArr h a).length - 1)) true,
          (h ++ [readArr h a]).set h.length arr)) := rfl
  refine ⟨?_, ?_, rfl⟩
  · cases b
    · rfl
    · rw [hopen, readArr_concat]
      cases hset : setColumn0 (readArr h a) with
      | error e => exact List.get?_append ha
      | ok arr =>
        show ((h ++ [readArr h a]).set h.length arr).get? a = h.get? a
        rw [List.get?_set_ne _ _ hne]
        exact List.get?_append ha
  · cases b
    · rfl
    · rw [hopen, readArr_concat]
      cases hset : setColumn0 (readArr h a) with
      | error e =>
        show Except.error e =
          (match setColumn0 (readArr h a) with
           | Except.error e₁ => Except.error e₁
           | Except.ok Mw =>
             searchBody Mw (List.range' 1 ((readArr h a).length - 1)) true)
        rw [hset]
      | ok arr =>
        show searchBody (readArr ((h ++ [readArr h a]).set h.length arr) h.length)
            (List.range' 1 ((readArr h a).length - 1)) true =
          solve_tsp_brute_force (readArr h a) true
        rw [readArr_set_self (by simp)]
        show searchBody arr (List.range' 1 ((readArr h a).length - 1)) true =
          (match setColumn0 (readArr h a) with
           | Except.error e₁ => Except.error e₁
           | Except.ok Mw =>
             searchBody Mw (List.range' 1 ((readArr h a).length - 1)) true)
        rw [hset]

/-- C8 witness at a one-element heap holding the 1-by-1 matrix [[5]],
open case. -/
theorem c8_witness :
    ((solve_tsp_brute_force_heap [[[.fin 5]]] 0 true).2).get? 0 = [[[.fin 5]]].get? 0 ∧
    (solve_tsp_brute_force_heap [[[.fin 5]]] 0 true).1 =
      solve_tsp_brute_force (readArr [[[.fin 5]]] 0) true ∧
    (solve_tsp_brute_force_heap [[[.fin 5]]] 0 false).2 = [[[.fin 5]]] :=
  @c8_no_mutation [[[.fin 5]]] 0 true (by decide)
